import Mathlib

/-!
Verification development for the in-memory event-management system in
`src/app.py` (a Streamlit CRUD application).  The store is a Python list of
event dicts held in `st.session_state.events`; the operations embedded here
are the submit handler of `add_event_view` together with `add_new_event`
(lines 84-99 and 165-177), `delete_event` (101-110), `edit_event` (112-135),
the sorting block of `view_sort_events_view` (202-224), the filter of
`search_events_view` (336-345), and the budget formatting used by
`get_events_df` (line 68) and `view_sort_events_view` (line 223).

Sorting goes through `pandas.DataFrame.sort_values` with the default
`kind='quicksort'`; on an object-dtype column this is numpy's generic
introspective quicksort (`npy_aquicksort`), which switches to an insertion
sort for ranges of at most `SMALL_QUICKSORT` = 15 elements (i.e. for whole
arrays of at most 16 elements) and is therefore stable only below that
threshold.  That algorithm is embedded below so that the behaviour of the
display sort can be settled exactly.
-/

set_option maxRecDepth 4000

namespace EMS

/-- Calendar date, modelling `datetime.date`; Python compares dates
lexicographically by (year, month, day). -/
structure Date where
  year : Nat
  month : Nat
  day : Nat
deriving DecidableEq, Repr

/-- Time of day, modelling `datetime.time`; it is carried through the store
operations but never compared by any embedded operation. -/
structure Time where
  hour : Nat
  minute : Nat
deriving DecidableEq, Repr

/-- Event status, the options of the `Status` selectbox. -/
inductive Status where
  | planned
  | booked
  | complete
  | cancelled
deriving DecidableEq, Repr

/-- An event record of `st.session_state.events`.  `budget` is held by the
program as a Python float of whole cents (the number_input has step 100.00
and format "%.2f"); it is modelled as the exact number of cents. -/
structure Event where
  id : String
  name : String
  date : Date
  time : Time
  location : String
  attendees : Nat
  budget : Nat
  status : Status
deriving DecidableEq, Repr

instance : Inhabited Event :=
  ⟨⟨"", "", ⟨0, 0, 0⟩, ⟨0, 0⟩, "", 0, 0, Status.planned⟩⟩

/-- The non-`id` fields collected by the add form and by the edit form. -/
structure Fields where
  name : String
  date : Date
  time : Time
  location : String
  attendees : Nat
  budget : Nat
  status : Status
deriving DecidableEq, Repr

/-- Outcome reported by a store operation via `st.success` / `st.error`. -/
inductive Res where
  | ok
  | validationFailed
  | notFound
deriving DecidableEq, Repr

/-- Python truthiness of a string: only the empty string is falsy. -/
def pyTruthyStr (s : String) : Bool :=
  s ≠ ""

/-- Python truthiness of a `datetime.date`: date objects are always truthy. -/
def pyTruthyDate (_ : Date) : Bool :=
  true

/-- Submit handler of `add_event_view` (lines 165-177) composed with
`add_new_event` (lines 84-99).  The guard is the Python truthiness test
`if event_name and event_date and event_location:`; on success
`add_new_event` appends a record carrying a fresh uuid (here the parameter
`freshId`), otherwise the collection is untouched and an error is shown. -/
def add_event_submit (events : List Event) (freshId : String) (d : Fields) :
    Res × List Event :=
  if pyTruthyStr d.name && pyTruthyDate d.date && pyTruthyStr d.location then
    (Res.ok, events ++
      [⟨freshId, d.name, d.date, d.time, d.location, d.attendees, d.budget, d.status⟩])
  else
    (Res.validationFailed, events)

/-- The in-place `st.session_state.events[i].update({...})` of `edit_event`:
every field except `id` is replaced. -/
def applyEdit (d : Fields) (e : Event) : Event :=
  { e with
    name := d.name
    date := d.date
    time := d.time
    location := d.location
    attendees := d.attendees
    budget := d.budget
    status := d.status }

/-- The `for i, event in enumerate(...)` loop of `edit_event` (112-129):
update the first record whose id matches and `break`; `none` when no record
matches. -/
def edit_list (eventId : String) (d : Fields) : List Event → Option (List Event)
  | [] => none
  | e :: r =>
    if e.id = eventId then
      some (applyEdit d e :: r)
    else
      match edit_list eventId d r with
      | some r' => some (e :: r')
      | none => none

/-- `edit_event` (lines 112-135): first-match update with a `found` flag. -/
def edit_event (events : List Event) (eventId : String) (d : Fields) :
    Res × List Event :=
  match edit_list eventId d events with
  | some es => (Res.ok, es)
  | none => (Res.notFound, events)

/-- `delete_event` (lines 101-110): rebuild the list keeping every record
whose id differs, then report success iff the length decreased. -/
def delete_event (events : List Event) (eventId : String) : Res × List Event :=
  let es := events.filter (fun e => e.id ≠ eventId)
  if es.length < events.length then (Res.ok, es) else (Res.notFound, es)

/-- One user action on the store.  `add` carries the uuid generated by
`str(uuid.uuid4())`; its freshness (collision probability negligible per the
spec) is the hypothesis `hfresh`. -/
inductive Step : List Event → List Event → Prop
  | add (es : List Event) (freshId : String) (d : Fields)
      (hfresh : freshId ∉ es.map Event.id) :
      Step es (add_event_submit es freshId d).2
  | edit (es : List Event) (eventId : String) (d : Fields) :
      Step es (edit_event es eventId d).2
  | del (es : List Event) (eventId : String) :
      Step es (delete_event es eventId).2

/-- A finite sequence of store operations. -/
inductive Steps : List Event → List Event → Prop
  | refl (es : List Event) : Steps es es
  | tail {es es' es'' : List Event} :
      Steps es es' → Step es' es'' → Steps es es''

/-- Substring test on character lists: does `n` occur contiguously in `h`?
This models `pandas.Series.str.contains` restricted to patterns that contain
no regular-expression metacharacter (`str.contains` treats its argument as a
regex; on metacharacter-free patterns `re.search` is exactly the substring
test). -/
def containsSub (n : List Char) : List Char → Bool
  | [] => n.isEmpty
  | c :: t => n.isPrefixOf (c :: t) || containsSub n t

/-- Per-character ASCII lowering of a string.  Python's `str.lower()`
performs full Unicode case mapping; the two agree exactly on ASCII strings
(code points below 128), and every theorem about the search is scoped to
that domain by an explicit `asciiStr` hypothesis. -/
def strLower (s : String) : String :=
  ⟨s.data.map Char.toLower⟩

/-- The `Search By:` selectbox options. -/
inductive SearchField where
  | name
  | location
deriving DecidableEq, Repr

/-- The column read by the search filter. -/
def fieldValue (e : Event) : SearchField → String
  | SearchField.name => e.name
  | SearchField.location => e.location

/-- The row predicate of `events_df[...str.lower().str.contains(term_lower)]`. -/
def matchB (f : SearchField) (term : String) (e : Event) : Bool :=
  containsSub (strLower term).data (strLower (fieldValue e f)).data

/-- The result list of `search_events_view` (lines 336-345): the view filters
only inside `if search_term:` (empty term is falsy, the view then shows no
result list); the term is lowercased but not trimmed, and each row's chosen
field is lowercased and tested for containment. -/
def search_events (events : List Event) (f : SearchField) (term : String) :
    Option (List Event) :=
  if pyTruthyStr term then some (events.filter (fun e => matchB f term e))
  else none

/-- Modelled from the spec: the search result as the claim words it — the
term trimmed of leading and trailing whitespace, then a case-insensitive
substring match on the chosen field.  Used only to compare the code's
behaviour against the claim. -/
def trimWs (s : List Char) : List Char :=
  ((s.dropWhile Char.isWhitespace).reverse.dropWhile Char.isWhitespace).reverse

/-- Modelled from the spec: search as described by claim C7 (trimmed term,
case-insensitive containment, collection order). -/
def searchSpecClaim (events : List Event) (f : SearchField) (term : String) :
    List Event :=
  events.filter (fun e =>
    containsSub (strLower ⟨trimWs term.data⟩).data (strLower (fieldValue e f)).data)

/-- Insert a thousands separator after every third digit; the input is the
reversed digit list of the integer part. -/
def insertSep : List Char → List Char
  | a :: b :: c :: d :: rest => a :: b :: c :: ',' :: insertSep (d :: rest)
  | l => l

/-- The budget formatting `f"$\x7bx:,.2f\x7d"` of `get_events_df` (line 68)
and `view_sort_events_view` (line 223), on a budget of `cents` whole cents:
dollar sign, comma thousands grouping, exactly two decimals. -/
def formatCents (cents : Nat) : String :=
  let intPart := cents / 100
  let frac := cents % 100
  let grouped := (insertSep (Nat.toDigits 10 intPart).reverse).reverse
  "$" ++ String.mk grouped ++ "." ++
    String.mk [Nat.digitChar (frac / 10), Nat.digitChar (frac % 10)]

/-- The displayed Budget cell for an event. -/
def formatBudget (e : Event) : String :=
  formatCents e.budget

/-! ### The display sort

`view_sort_events_view` sorts with `pd.DataFrame(events_list).sort_values`
using the default `kind='quicksort'`.  For a single object-dtype column
pandas computes `nargsort(column, kind, ascending)` and takes the rows in
that order; with no missing values `nargsort` is `argsort` for ascending and
the reverse/argsort/reverse construction for descending.  numpy's `argsort`
with `kind='quicksort'` on an object array is the generic introspective
quicksort `npy_aquicksort`: median-of-three quicksort on the index array,
switching to insertion sort when a range has at most `SMALL_QUICKSORT` + 1
elements and to heapsort when the depth budget `2 * msb(n)` is exhausted.
The comparator `lt i j` below stands for `column[i] < column[j]`. -/

/-- numpy's quicksort/insertion-sort threshold. -/
def SMALL_QUICKSORT : Nat := 15

/-- Read of the index array, total on `Nat` (all accesses in the algorithm
are in bounds). -/
def aget (t : Array Nat) (i : Nat) : Nat :=
  t.getD i 0

/-- Write to the index array. -/
def aset (t : Array Nat) (i x : Nat) : Array Nat :=
  if h : i < t.size then t.set ⟨i, h⟩ x else t

/-- `INTP_SWAP` on the index array. -/
def aswap (t : Array Nat) (i j : Nat) : Array Nat :=
  let x := aget t i
  let y := aget t j
  aset (aset t i y) j x

/-- The scan `do ++pi; while (cmp(v[tosort[pi]], vp) < 0)`. -/
def scanUp (lt : Nat → Nat → Bool) (t : Array Nat) (vi : Nat) :
    Nat → Nat → Nat
  | 0, pi => pi + 1
  | fuel + 1, pi =>
    if lt (aget t (pi + 1)) vi then scanUp lt t vi fuel (pi + 1) else pi + 1

/-- The scan `do --pj; while (cmp(vp, v[tosort[pj]]) < 0)`. -/
def scanDown (lt : Nat → Nat → Bool) (t : Array Nat) (vi : Nat) :
    Nat → Nat → Nat
  | 0, pj => pj - 1
  | fuel + 1, pj =>
    if lt vi (aget t (pj - 1)) then scanDown lt t vi fuel (pj - 1) else pj - 1

/-- The exchange loop of the Hoare partition: advance both scans, stop when
they cross, otherwise swap and continue. -/
def partLoop (lt : Nat → Nat → Bool) (vi : Nat) :
    Nat → Array Nat → Nat → Nat → Array Nat × Nat
  | 0, t, pi, _ => (t, pi)
  | fuel + 1, t, pi, pj =>
    let pi' := scanUp lt t vi t.size pi
    let pj' := scanDown lt t vi t.size pj
    if pj' ≤ pi' then (t, pi')
    else partLoop lt vi fuel (aswap t pi' pj') pi' pj'

/-- One median-of-three partition step of `npy_aquicksort` on the range
`[pl, pr]`: order `t[pl]`, `t[pm]`, `t[pr]`, park the pivot at `pr - 1`,
run the exchange loop, and restore the pivot at the crossing point. -/
def partition (lt : Nat → Nat → Bool) (t : Array Nat) (pl pr : Nat) :
    Array Nat × Nat :=
  let pm := pl + (pr - pl) / 2
  let t := if lt (aget t pm) (aget t pl) then aswap t pm pl else t
  let t := if lt (aget t pr) (aget t pm) then aswap t pr pm else t
  let t := if lt (aget t pm) (aget t pl) then aswap t pm pl else t
  let vi := aget t pm
  let t := aswap t pm (pr - 1)
  let (t, pi) := partLoop lt vi (pr - pl + 1) t pl (pr - 1)
  let t := aswap t pi (pr - 1)
  (t, pi)

/-- Insert an element into the sorted prefix, before the first strictly
greater entry.  The C loop shifts `t[pi]` left past the maximal run of
strictly greater entries of the already-sorted prefix `t[pl..pi-1]`; on a
sorted prefix both formulations place it at exactly this position. -/
def orderedInsertIdx (lt : Nat → Nat → Bool) (i : Nat) : List Nat → List Nat
  | [] => [i]
  | j :: r => if lt i j then i :: j :: r else j :: orderedInsertIdx lt i r

/-- The insertion sort that `npy_aquicksort` runs on small ranges: the
entries are taken left to right and each is inserted into the sorted
prefix. -/
def insArgsort (lt : Nat → Nat → Bool) (l : List Nat) : List Nat :=
  l.foldl (fun acc i => orderedInsertIdx lt i acc) []

/-- The `/* insertion sort */` block on the range `[pl, pr]` of the index
array. -/
def insSortRange (lt : Nat → Nat → Bool) (t : Array Nat) (pl pr : Nat) :
    Array Nat :=
  let l := t.toList
  (l.take pl ++ insArgsort lt ((l.drop pl).take (pr + 1 - pl)) ++
    l.drop (pr + 1)).toArray

/-- One-based read used by the heapsort fallback (`a = tosort - 1`). -/
def hget (t : Array Nat) (pl i : Nat) : Nat :=
  aget t (pl + i - 1)

/-- One-based write used by the heapsort fallback. -/
def hset (t : Array Nat) (pl i x : Nat) : Array Nat :=
  aset t (pl + i - 1) x

/-- The sift-down loop of `npy_aheapsort`. -/
def siftLoop (lt : Nat → Nat → Bool) (pl tmp n : Nat) :
    Nat → Array Nat → Nat → Nat → Array Nat
  | 0, t, i, _ => hset t pl i tmp
  | fuel + 1, t, i, j =>
    if j ≤ n then
      let j := if j < n && lt (hget t pl j) (hget t pl (j + 1)) then j + 1 else j
      if lt tmp (hget t pl j) then
        siftLoop lt pl tmp n fuel (hset t pl i (hget t pl j)) j (2 * j)
      else hset t pl i tmp
    else hset t pl i tmp

/-- The heapify loop of `npy_aheapsort` (`for l = n >> 1; l > 0; --l`). -/
def heapifyLoop (lt : Nat → Nat → Bool) (pl n : Nat) :
    Nat → Array Nat → Nat → Array Nat
  | 0, t, _ => t
  | fuel + 1, t, l =>
    if l = 0 then t
    else
      let tmp := hget t pl l
      let t := siftLoop lt pl tmp n (n + 2) t l (2 * l)
      heapifyLoop lt pl n fuel t (l - 1)

/-- The extraction loop of `npy_aheapsort` (`for; n > 1;`). -/
def popLoop (lt : Nat → Nat → Bool) (pl : Nat) :
    Nat → Array Nat → Nat → Array Nat
  | 0, t, _ => t
  | fuel + 1, t, n =>
    if n ≤ 1 then t
    else
      let tmp := hget t pl n
      let t := hset t pl n (hget t pl 1)
      let n := n - 1
      let t := siftLoop lt pl tmp n (n + 2) t 1 2
      popLoop lt pl fuel t n

/-- `npy_aheapsort` on the range `[pl, pr]`; the introsort fallback when the
depth budget is exhausted (never reached at the collection sizes evaluated
in this development). -/
def aheapsortRange (lt : Nat → Nat → Bool) (t : Array Nat) (pl pr : Nat) :
    Array Nat :=
  let n := pr + 1 - pl
  popLoop lt pl (n + 1) (heapifyLoop lt pl n (n / 2 + 1) t (n / 2)) n

/-- The outer loop of `npy_aquicksort`: while the range is large, either
fall back to heapsort (depth budget exhausted) or partition and descend into
the smaller side, pushing the larger side with the decremented depth; when
the range is small, insertion sort it and pop the next range. -/
def aqsortLoop (lt : Nat → Nat → Bool) :
    Nat → Array Nat → Nat → Nat → List (Nat × Nat) → Int → List Int → Array Nat
  | 0, t, _, _, _, _, _ => t
  | fuel + 1, t, pl, pr, stack, cdepth, sdepth =>
    if SMALL_QUICKSORT < pr - pl then
      if cdepth < 0 then
        let t := aheapsortRange lt t pl pr
        match stack, sdepth with
        | [], _ => t
        | (pl', pr') :: s, d :: ds => aqsortLoop lt fuel t pl' pr' s d ds
        | (pl', pr') :: s, [] => aqsortLoop lt fuel t pl' pr' s 0 []
      else
        let (t', pi) := partition lt t pl pr
        if pi - pl < pr - pi then
          aqsortLoop lt fuel t' pl (pi - 1) ((pi + 1, pr) :: stack)
            (cdepth - 1) ((cdepth - 1) :: sdepth)
        else
          aqsortLoop lt fuel t' (pi + 1) pr ((pl, pi - 1) :: stack)
            (cdepth - 1) ((cdepth - 1) :: sdepth)
    else
      let t := insSortRange lt t pl pr
      match stack, sdepth with
      | [], _ => t
      | (pl', pr') :: s, d :: ds => aqsortLoop lt fuel t pl' pr' s d ds
      | (pl', pr') :: s, [] => aqsortLoop lt fuel t pl' pr' s 0 []

/-- `np.argsort(column, kind='quicksort')`: sort the index array
`[0, ..., n-1]` with `npy_aquicksort`; the depth budget is `2 * msb(n)`. -/
def npyArgsort (lt : Nat → Nat → Bool) (n : Nat) : List Nat :=
  if n = 0 then []
  else
    (aqsortLoop lt (4 * n + 4) (List.range n).toArray 0 (n - 1) []
      (2 * (Nat.log2 n : Int)) []).toList

/-- `pandas.core.sorting.nargsort` for a column with no missing values:
ascending is a plain argsort; descending reverses the values, argsorts, maps
the result through the reversed index list and reverses the indexer. -/
def nargsort (lt : Nat → Nat → Bool) (n : Nat) (ascending : Bool) : List Nat :=
  if ascending then npyArgsort lt n
  else
    ((npyArgsort (fun i j => lt (n - 1 - i) (n - 1 - j)) n).map
      (fun k => n - 1 - k)).reverse

/-- The index comparator of a column: `lt i j` iff row `i`'s key is below
row `j`'s key. -/
def colLt {K : Type} (keyOf : Event → K) (ltK : K → K → Bool)
    (l : List Event) : Nat → Nat → Bool :=
  fun i j => ltK (keyOf (l.getD i default)) (keyOf (l.getD j default))

/-- `df.sort_values(by=col, ascending=b)` for a single column: take the rows
in `nargsort` order. -/
def sort_values {K : Type} (keyOf : Event → K) (ltK : K → K → Bool)
    (ascending : Bool) (l : List Event) : List Event :=
  (nargsort (colLt keyOf ltK l) l.length ascending).map
    (fun k => l.getD k default)

/-- Python's `<` on `datetime.date`: lexicographic on (year, month, day). -/
def Date.ltb (a b : Date) : Bool :=
  decide (a.year < b.year ∨ (a.year = b.year ∧
    (a.month < b.month ∨ (a.month = b.month ∧ a.day < b.day))))

/-- Python's `<` on integers. -/
def natLtb (a b : Nat) : Bool :=
  decide (a < b)

/-- Python's `<` on strings: lexicographic by code point. -/
def charListLt : List Char → List Char → Bool
  | _, [] => false
  | [], _ :: _ => true
  | a :: as, b :: bs => if a < b then true else if b < a then false else charListLt as bs

/-- String comparison on `Event.name`. -/
def strLtb (a b : String) : Bool :=
  charListLt a.data b.data

/-- The options of the `Sort By:` selectbox. -/
inductive SortKey where
  | dateDesc
  | dateAsc
  | attendeesDesc
  | nameAsc
deriving DecidableEq, Repr

/-- The indexer computed for each `Sort By:` option: 'Date (Newest first)'
is `sort_values(by='date', ascending=False)`, 'Date (Oldest first)' is
ascending, 'Attendees (High to Low)' is `by='attendees', ascending=False`,
'Name (A-Z)' is `by='name', ascending=True`. -/
def sortIndexer (l : List Event) : SortKey → List Nat
  | SortKey.dateDesc => nargsort (colLt Event.date Date.ltb l) l.length false
  | SortKey.dateAsc => nargsort (colLt Event.date Date.ltb l) l.length true
  | SortKey.attendeesDesc => nargsort (colLt Event.attendees natLtb l) l.length false
  | SortKey.nameAsc => nargsort (colLt Event.name strLtb l) l.length true

/-- The sorted event sequence displayed by `view_sort_events_view`
(lines 202-224). -/
def view_sort_events (l : List Event) (k : SortKey) : List Event :=
  (sortIndexer l k).map (fun i => l.getD i default)

/-- A regular-expression metacharacter of Python's `re` module (the two
brace characters are given by code point). -/
def regexMeta (c : Char) : Bool :=
  c ∈ (['.', '^', '$', '*', '+', '?', '[', ']', '\\', '|', '(', ')'] ++
    [Char.ofNat 123, Char.ofNat 125])

/-- A search term on which `str.contains`'s regex search coincides with the
substring test: no metacharacter occurs. -/
def literalTerm (t : String) : Bool :=
  t.data.all (fun c => !regexMeta c)

/-- An ASCII string (every code point below 128): on these, Python's full
Unicode `str.lower()` agrees with the per-character ASCII lowering
`strLower` of this embedding. -/
def asciiStr (s : String) : Bool :=
  s.data.all (fun c => c.toNat < 128)

/-- Strict-total-order properties of a key comparator (Python `<` on dates,
integers and strings has all three): transitivity, asymmetry, and equality
of incomparable keys. -/
def LtOrder {K : Type} (ltK : K → K → Bool) : Prop :=
  (∀ x y z, ltK x y = true → ltK y z = true → ltK x z = true) ∧
  (∀ x y, ltK x y = true → ltK y x = false) ∧
  (∀ x y, ltK x y = false → ltK y x = false → x = y)

/-- Properties of an index comparator as the argsort sees it: transitivity,
asymmetry, and congruence of tied indices (two rows with equal keys compare
identically against every third row). -/
def IdxOrder (lt : Nat → Nat → Bool) : Prop :=
  (∀ a b c, lt a b = true → lt b c = true → lt a c = true) ∧
  (∀ a b, lt a b = true → lt b a = false) ∧
  (∀ a b c, lt a b = false → lt b a = false → lt a c = lt b c ∧ lt c a = lt c b)

/-! ### Concrete data used by witnesses and counterexamples -/

/-- An event with the given id, name, date and attendee count. -/
def mkEvent (id name : String) (dt : Date) (att : Nat) : Event :=
  ⟨id, name, dt, ⟨9, 0⟩, "Hall", att, 100000, Status.planned⟩

/-- Form data whose name is a single space: truthy in Python, so the add
handler accepts it. -/
def wsFields : Fields :=
  ⟨" ", ⟨2025, 1, 1⟩, ⟨9, 0⟩, "X", 5, 1000, Status.planned⟩

/-- The claim scenario `add(name:"", location:"X", attendees:5, budget:10)`. -/
def emptyNameFields : Fields :=
  ⟨"", ⟨2025, 1, 1⟩, ⟨9, 0⟩, "X", 5, 1000, Status.planned⟩

/-- Generic valid form data. -/
def someFields : Fields :=
  ⟨"A", ⟨2025, 1, 1⟩, ⟨9, 0⟩, "L", 5, 1000, Status.planned⟩

/-- An event named "demo". -/
def demoEvent : Event :=
  mkEvent "e1" "demo" ⟨2025, 1, 1⟩ 10

/-- Seventeen events sharing one date (ids e0..e16): one more than numpy's
insertion-sort threshold, so the default quicksort partitions once and
reorders the ties. -/
def ce17 : List Event :=
  (List.range 17).map (fun i => mkEvent ("e" ++ toString i) "E" ⟨2025, 1, 1⟩ i)

/-- Two events with equal dates, for the stability witness. -/
def twoTied : List Event :=
  [mkEvent "a" "A" ⟨2025, 1, 1⟩ 3, mkEvent "b" "B" ⟨2025, 1, 1⟩ 7]

/-- An event paired with a same-id duplicate, for the duplicate-id claim. -/
def dupA : Event := mkEvent "x" "first" ⟨2025, 1, 1⟩ 1

/-- The duplicate record sharing `dupA`'s id. -/
def dupB : Event := mkEvent "x" "second" ⟨2025, 1, 2⟩ 2

/-- Events with budgets 1234.50 and 1000000.00 dollars (in cents). -/
def ev1234 : Event :=
  ⟨"b1", "B1", ⟨2025, 1, 1⟩, ⟨9, 0⟩, "Hall", 10, 123450, Status.planned⟩

/-- The million-dollar event of the formatting claim. -/
def evMillion : Event :=
  ⟨"b2", "B2", ⟨2025, 1, 1⟩, ⟨9, 0⟩, "Hall", 10, 100000000, Status.planned⟩

end EMS

namespace EMS

/-! ### Helper lemmas about the store operations -/

theorem applyEdit_id (d : Fields) (e : Event) : (applyEdit d e).id = e.id :=
  rfl

theorem edit_list_of_not_mem (eventId : String) (d : Fields) :
    ∀ es : List Event, (∀ e ∈ es, e.id ≠ eventId) →
      edit_list eventId d es = none := by
  intro es
  induction es with
  | nil => intro _; rfl
  | cons e r ih =>
    intro h
    simp only [edit_list]
    rw [if_neg (h e (List.mem_cons_self e r))]
    rw [ih (fun e' he' => h e' (List.mem_cons_of_mem e he'))]

theorem edit_list_first (eventId : String) (d : Fields) :
    ∀ (p : List Event) (m : Event) (s : List Event),
      (∀ e ∈ p, e.id ≠ eventId) → m.id = eventId →
      edit_list eventId d (p ++ m :: s) = some (p ++ applyEdit d m :: s) := by
  intro p
  induction p with
  | nil =>
    intro m s _ hm
    simp only [List.nil_append, edit_list]
    rw [if_pos hm]
  | cons e p' ih =>
    intro m s hp hm
    simp only [List.cons_append, edit_list, List.append_eq]
    rw [if_neg (hp e (List.mem_cons_self e p'))]
    rw [ih m s (fun e' he' => hp e' (List.mem_cons_of_mem e he')) hm]

theorem exists_first_id_split (es : List Event) (eventId : String)
    (h : eventId ∈ es.map Event.id) :
    ∃ p m s, es = p ++ m :: s ∧ m.id = eventId ∧ ∀ e ∈ p, e.id ≠ eventId := by
  induction es with
  | nil => simp at h
  | cons e r ih =>
    by_cases he : e.id = eventId
    · exact ⟨[], e, r, rfl, he, by simp⟩
    · have hr : eventId ∈ r.map Event.id := by
        rcases List.mem_map.mp h with ⟨e', he', hid⟩
        rcases List.mem_cons.mp he' with h1 | h2
        · exact absurd (h1 ▸ hid) he
        · exact List.mem_map.mpr ⟨e', h2, hid⟩
      rcases ih hr with ⟨p, m, s, hsplit, hm, hp⟩
      refine ⟨e :: p, m, s, by rw [hsplit, List.cons_append], hm, ?_⟩
      intro e' he'
      rcases List.mem_cons.mp he' with h1 | h2
      · exact h1 ▸ he
      · exact hp e' h2

theorem delete_event_snd (es : List Event) (eventId : String) :
    (delete_event es eventId).2 = es.filter (fun e => e.id ≠ eventId) := by
  simp only [delete_event]
  split <;> rfl

theorem filter_id_eq_self (eventId : String) :
    ∀ es : List Event, (∀ e ∈ es, e.id ≠ eventId) →
      es.filter (fun e => e.id ≠ eventId) = es := by
  intro es h
  exact List.filter_eq_self.mpr (fun e he => by simp [h e he])

theorem edit_list_ids (eventId : String) (d : Fields) :
    ∀ es es' : List Event, edit_list eventId d es = some es' →
      es'.map Event.id = es.map Event.id := by
  intro es
  induction es with
  | nil => intro es' h; simp [edit_list] at h
  | cons e r ih =>
    intro es' h
    simp only [edit_list] at h
    by_cases he : e.id = eventId
    · rw [if_pos he] at h
      cases h
      simp [applyEdit_id]
    · rw [if_neg he] at h
      cases hr : edit_list eventId d r with
      | none => rw [hr] at h; cases h
      | some r' =>
        rw [hr] at h
        cases h
        simp [ih r' hr]

theorem edit_event_ids (es : List Event) (eventId : String) (d : Fields) :
    ((edit_event es eventId d).2).map Event.id = es.map Event.id := by
  unfold edit_event
  cases h : edit_list eventId d es with
  | none => rfl
  | some es' => exact edit_list_ids eventId d es es' h

/-! ### The claims about add, edit, delete, search and formatting -/

/-- C2 (counterexample): the claim says any record whose name is empty or
whitespace-only is rejected with ValidationFailed and the collection left
unchanged; but the handler's guard is Python truthiness, and the
whitespace-only name " " is truthy, so the record is appended. -/
theorem claim_C2_counterexample :
    wsFields.name.data.all Char.isWhitespace = true ∧
    wsFields.location = "X" ∧
    (add_event_submit [] "f1" wsFields).1 = Res.ok ∧
    (add_event_submit [] "f1" wsFields).2 ≠ [] := by
  decide

/-- C2 (amended): a record whose name or location is the empty string is
rejected with ValidationFailed and the collection is left unchanged
(whitespace-only values are truthy and are accepted). -/
theorem claim_C2 (events : List Event) (freshId : String) (d : Fields)
    (h : d.name = "" ∨ d.location = "") :
    add_event_submit events freshId d = (Res.validationFailed, events) := by
  rcases h with h | h <;>
    simp [add_event_submit, pyTruthyStr, pyTruthyDate, h]

/-- C2 witness: the claim scenario add(name:"", location:"X") fails with
ValidationFailed and appends nothing. -/
theorem claim_C2_witness :
    (emptyNameFields.name = "" ∨ emptyNameFields.location = "") ∧
    add_event_submit [] "f1" emptyNameFields = (Res.validationFailed, []) :=
  ⟨Or.inl rfl, claim_C2 [] "f1" emptyNameFields (Or.inl rfl)⟩

/-- C3: starting from a collection with distinct ids, any sequence of
add/edit/delete steps (each add using a fresh uuid) keeps all ids
distinct. -/
theorem claim_C3 (es es' : List Event) (hnd : (es.map Event.id).Nodup)
    (h : Steps es es') : (es'.map Event.id).Nodup := by
  induction h with
  | refl => exact hnd
  | tail _hs hstep ih =>
    cases hstep with
    | add freshId d hfresh =>
      unfold add_event_submit
      split
      · rw [List.map_append, List.nodup_append]
        refine ⟨ih, List.nodup_singleton _, ?_⟩
        intro x hx hx2
        simp only [List.map_cons, List.map_nil, List.mem_singleton] at hx2
        exact hfresh (hx2 ▸ hx)
      · exact ih
    | edit eventId d => rw [edit_event_ids]; exact ih
    | del eventId =>
      rw [delete_event_snd]
      exact List.Nodup.sublist
        (List.Sublist.map Event.id (List.filter_sublist _)) ih

/-- C3 witness: one fresh add starting from the empty collection. -/
theorem claim_C3_witness :
    (([] : List Event).map Event.id).Nodup ∧
    (((add_event_submit [] "a" someFields).2).map Event.id).Nodup :=
  ⟨by simp, claim_C3 [] _ (by simp)
    (Steps.tail (Steps.refl []) (Step.add [] "a" someFields (by simp)))⟩

/-- C4: editing a nonexistent id reports NotFound and returns the
collection unchanged. -/
theorem claim_C4 (events : List Event) (eventId : String) (d : Fields)
    (h : eventId ∉ events.map Event.id) :
    edit_event events eventId d = (Res.notFound, events) := by
  unfold edit_event
  rw [edit_list_of_not_mem eventId d events]
  intro e he heq
  exact h (List.mem_map.mpr ⟨e, he, heq⟩)

/-- C4 witness: editing id "zzz" in a one-event collection. -/
theorem claim_C4_witness :
    "zzz" ∉ [demoEvent].map Event.id ∧
    edit_event [demoEvent] "zzz" someFields = (Res.notFound, [demoEvent]) :=
  ⟨by decide, claim_C4 [demoEvent] "zzz" someFields (by decide)⟩

/-- C5: editing an existing id succeeds, replaces all seven mutable fields
of the first matching record at once, preserves its id, and leaves every
other record (the prefix p and suffix s) unchanged. -/
theorem claim_C5 (events : List Event) (eventId : String) (d : Fields)
    (h : eventId ∈ events.map Event.id) :
    ∃ p m s, events = p ++ m :: s ∧ m.id = eventId ∧
      (∀ e ∈ p, e.id ≠ eventId) ∧
      edit_event events eventId d = (Res.ok, p ++ applyEdit d m :: s) ∧
      (applyEdit d m).id = eventId ∧
      (applyEdit d m).name = d.name ∧ (applyEdit d m).date = d.date ∧
      (applyEdit d m).time = d.time ∧
      (applyEdit d m).location = d.location ∧
      (applyEdit d m).attendees = d.attendees ∧
      (applyEdit d m).budget = d.budget ∧
      (applyEdit d m).status = d.status := by
  rcases exists_first_id_split events eventId h with ⟨p, m, s, hsplit, hm, hp⟩
  refine ⟨p, m, s, hsplit, hm, hp, ?_, hm ▸ applyEdit_id d m, rfl, rfl, rfl,
    rfl, rfl, rfl, rfl⟩
  unfold edit_event
  rw [hsplit, edit_list_first eventId d p m s hp hm]

/-- C5 witness: editing the second of two events. -/
theorem claim_C5_witness :
    "b" ∈ twoTied.map Event.id ∧
    (∃ p m s, twoTied = p ++ m :: s ∧ m.id = "b" ∧
      (∀ e ∈ p, e.id ≠ "b") ∧
      edit_event twoTied "b" someFields = (Res.ok, p ++ applyEdit someFields m :: s) ∧
      (applyEdit someFields m).id = "b" ∧
      (applyEdit someFields m).name = someFields.name ∧
      (applyEdit someFields m).date = someFields.date ∧
      (applyEdit someFields m).time = someFields.time ∧
      (applyEdit someFields m).location = someFields.location ∧
      (applyEdit someFields m).attendees = someFields.attendees ∧
      (applyEdit someFields m).budget = someFields.budget ∧
      (applyEdit someFields m).status = someFields.status) :=
  ⟨by decide, claim_C5 twoTied "b" someFields (by decide)⟩

/-- C6: removing an id that occurs (in a collection whose ids are distinct)
deletes exactly the matching record, keeps all others in order, and a
second removal of the same id reports NotFound and changes nothing. -/
theorem claim_C6 (events : List Event) (eventId : String)
    (hnd : (events.map Event.id).Nodup) (h : eventId ∈ events.map Event.id) :
    ∃ p m s, events = p ++ m :: s ∧ m.id = eventId ∧
      (∀ e ∈ p ++ s, e.id ≠ eventId) ∧
      delete_event events eventId = (Res.ok, p ++ s) ∧
      delete_event (p ++ s) eventId = (Res.notFound, p ++ s) := by
  rcases exists_first_id_split events eventId h with ⟨p, m, s, hsplit, hm, hp⟩
  have hs : ∀ e ∈ s, e.id ≠ eventId := by
    intro e he heq
    rw [hsplit] at hnd
    simp only [List.map_append, List.map_cons] at hnd
    have := (List.nodup_append.mp hnd).2.1
    rw [List.nodup_cons] at this
    exact this.1 (hm ▸ heq ▸ List.mem_map.mpr ⟨e, he, rfl⟩)
  have hps : ∀ e ∈ p ++ s, e.id ≠ eventId := by
    intro e he
    rcases List.mem_append.mp he with h1 | h2
    · exact hp e h1
    · exact hs e h2
  have hfil : events.filter (fun e => e.id ≠ eventId) = p ++ s := by
    rw [hsplit, List.filter_append, List.filter_cons]
    rw [if_neg (by simp [hm])]
    rw [filter_id_eq_self eventId p hp, filter_id_eq_self eventId s hs]
  have hfil2 : (p ++ s).filter (fun e => e.id ≠ eventId) = p ++ s :=
    filter_id_eq_self eventId (p ++ s) hps
  have hlen : (p ++ s).length < events.length := by
    rw [hsplit]; simp
  refine ⟨p, m, s, hsplit, hm, hps, ?_, ?_⟩
  · unfold delete_event
    simp only [hfil]
    rw [if_pos hlen]
  · unfold delete_event
    simp only [hfil2]
    rw [if_neg (lt_irrefl _)]

/-- C6 witness: delete "a" from a two-event collection, then again. -/
theorem claim_C6_witness :
    (twoTied.map Event.id).Nodup ∧ "a" ∈ twoTied.map Event.id ∧
    (∃ p m s, twoTied = p ++ m :: s ∧ m.id = "a" ∧
      (∀ e ∈ p ++ s, e.id ≠ "a") ∧
      delete_event twoTied "a" = (Res.ok, p ++ s) ∧
      delete_event (p ++ s) "a" = (Res.notFound, p ++ s)) :=
  ⟨by decide, by decide, claim_C6 twoTied "a" (by decide) (by decide)⟩

/-- C7 (counterexample): the claim says the term is trimmed before the
case-insensitive substring match; the code lowercases but never trims, so
searching " demo " (with spaces) over an event named "demo" returns nothing
although the trimmed reading returns the event. -/
theorem claim_C7_counterexample :
    asciiStr " demo " = true ∧ literalTerm " demo " = true ∧
    asciiStr (fieldValue demoEvent SearchField.name) = true ∧
    searchSpecClaim [demoEvent] SearchField.name " demo " = [demoEvent] ∧
    search_events [demoEvent] SearchField.name " demo " = some [] ∧
    (some ([] : List Event) ≠ some [demoEvent]) := by
  decide

/-- C7 (amended): for a nonempty ASCII search term free of regex
metacharacters (on ASCII input Python's Unicode `str.lower()` is the ASCII
lowering embedded here, and `str.contains`'s regex search degenerates to
the substring test) over a collection whose searched fields are ASCII,
the search returns exactly the events whose chosen lowercased field
contains the lowercased term exactly as typed (no trimming), in collection
order; an empty term produces no result list at all. -/
theorem claim_C7 :
    (∀ (events : List Event) (f : SearchField),
      search_events events f "" = none) ∧
    (∀ (events : List Event) (f : SearchField) (term : String),
      term ≠ "" → literalTerm term = true → asciiStr term = true →
      (∀ e ∈ events, asciiStr (fieldValue e f) = true) →
      ∃ r, search_events events f term = some r ∧
        r.Sublist events ∧
        (∀ e ∈ r, matchB f term e = true) ∧
        (∀ e ∈ events, matchB f term e = true → e ∈ r) ∧
        (∀ e : Event, matchB f term e = false → e ∉ r)) := by
  constructor
  · intro events f
    simp [search_events, pyTruthyStr]
  · intro events f term hne _hlit _hascii _hfields
    refine ⟨events.filter (fun e => matchB f term e), ?_, ?_, ?_, ?_, ?_⟩
    · simp [search_events, pyTruthyStr, hne]
    · exact List.filter_sublist events
    · intro e he
      exact (List.mem_filter.mp he).2
    · intro e he hmatch
      exact List.mem_filter.mpr ⟨he, hmatch⟩
    · intro e hmatch he
      rw [(List.mem_filter.mp he).2] at hmatch
      cases hmatch

/-- C7 witness: the nonempty ASCII literal term "demo" over the ASCII-named
event "demo" matches case-insensitively. -/
theorem claim_C7_witness :
    ("demo" : String) ≠ "" ∧ literalTerm "demo" = true ∧
    asciiStr "demo" = true ∧
    (∀ e ∈ [demoEvent], asciiStr (fieldValue e SearchField.name) = true) ∧
    (∃ r, search_events [demoEvent] SearchField.name "demo" = some r ∧
      r.Sublist [demoEvent] ∧
      (∀ e ∈ r, matchB SearchField.name "demo" e = true) ∧
      (∀ e ∈ [demoEvent], matchB SearchField.name "demo" e = true → e ∈ r) ∧
      (∀ e : Event, matchB SearchField.name "demo" e = false → e ∉ r)) :=
  ⟨by decide, by decide, by decide, by decide,
    claim_C7.2 [demoEvent] SearchField.name "demo" (by decide) (by decide)
      (by decide) (by decide)⟩

/-- C8: the displayed budget carries a dollar sign, comma thousands
separators and exactly two decimals; budget 1234.50 dollars renders as
"$1,234.50" and budget 1000000.00 dollars as "$1,000,000.00". -/
theorem claim_C8 :
    ev1234.budget = 123450 ∧ formatBudget ev1234 = "$1,234.50" ∧
    evMillion.budget = 100000000 ∧ formatBudget evMillion = "$1,000,000.00" := by
  refine ⟨rfl, ?_, rfl, ?_⟩ <;> decide

/-- C10: on any collection — distinct ids or not — delete removes every
record carrying the id and keeps the rest in their relative order, while
edit rewrites only the first matching record and leaves the whole suffix
(later same-id duplicates included) untouched. -/
theorem claim_C10 (events : List Event) (eventId : String) (d : Fields) :
    ((delete_event events eventId).2.Sublist events ∧
      (∀ e ∈ (delete_event events eventId).2, e.id ≠ eventId) ∧
      (∀ e ∈ events, e.id ≠ eventId → e ∈ (delete_event events eventId).2)) ∧
    (eventId ∈ events.map Event.id →
      ∃ p m s, events = p ++ m :: s ∧ m.id = eventId ∧
        (∀ e ∈ p, e.id ≠ eventId) ∧
        (edit_event events eventId d).2 = p ++ applyEdit d m :: s) := by
  constructor
  · rw [delete_event_snd]
    refine ⟨List.filter_sublist events, ?_, ?_⟩
    · intro e he
      simpa using (List.mem_filter.mp he).2
    · intro e he hne
      exact List.mem_filter.mpr ⟨he, by simpa using hne⟩
  · intro h
    rcases exists_first_id_split events eventId h with ⟨p, m, s, hsplit, hm, hp⟩
    refine ⟨p, m, s, hsplit, hm, hp, ?_⟩
    unfold edit_event
    rw [hsplit, edit_list_first eventId d p m s hp hm]

/-! ### The insertion argsort: decomposition, permutation, sortedness,
stability and identity-on-sorted-input.  These lemmas describe the
`/* insertion sort */` branch of `npy_aquicksort`, the only branch reached
on index ranges of at most `SMALL_QUICKSORT` + 1 entries. -/

theorem orderedInsertIdx_split (lt : Nat → Nat → Bool) (h : IdxOrder lt)
    (i : Nat) :
    ∀ acc : List Nat, List.Pairwise (fun a b => lt b a = false) acc →
      ∃ p s, acc = p ++ s ∧
        orderedInsertIdx lt i acc = p ++ i :: s ∧
        (∀ j ∈ p, lt i j = false) ∧ (∀ j ∈ s, lt i j = true) := by
  intro acc
  induction acc with
  | nil => exact fun _ => ⟨[], [], rfl, rfl, by simp, by simp⟩
  | cons j r ih =>
    intro hpw
    rw [List.pairwise_cons] at hpw
    cases hij : lt i j with
    | true =>
      refine ⟨[], j :: r, rfl, by simp [orderedInsertIdx, hij], by simp, ?_⟩
      intro j' hj'
      rcases List.mem_cons.mp hj' with rfl | hj'r
      · exact hij
      · cases hjj : lt j j' with
        | true => exact h.1 i j j' hij hjj
        | false =>
          have h2 : lt j' j = false := hpw.1 j' hj'r
          rw [← (h.2.2 j j' i hjj h2).2]
          exact hij
    | false =>
      rcases ih hpw.2 with ⟨p, s, hacc, hins, hp, hs⟩
      refine ⟨j :: p, s, by rw [hacc, List.cons_append], ?_, ?_, hs⟩
      · simp only [orderedInsertIdx]
        rw [if_neg (by simp [hij]), hins, List.cons_append]
      · intro j' hj'
        rcases List.mem_cons.mp hj' with rfl | hj'p
        · exact hij
        · exact hp j' hj'p

theorem orderedInsertIdx_perm (lt : Nat → Nat → Bool) (i : Nat) :
    ∀ acc : List Nat, (orderedInsertIdx lt i acc).Perm (i :: acc) := by
  intro acc
  induction acc with
  | nil => exact List.Perm.refl _
  | cons j r ih =>
    simp only [orderedInsertIdx]
    split
    · exact List.Perm.refl _
    · exact (ih.cons j).trans (List.Perm.swap i j r)

theorem orderedInsertIdx_pairwise (lt : Nat → Nat → Bool) (h : IdxOrder lt)
    (i : Nat) (acc : List Nat)
    (hpw : List.Pairwise (fun a b => lt b a = false) acc) :
    List.Pairwise (fun a b => lt b a = false) (orderedInsertIdx lt i acc) := by
  rcases orderedInsertIdx_split lt h i acc hpw with ⟨p, s, hacc, hins, hp, hs⟩
  rw [hins]
  rw [hacc, List.pairwise_append] at hpw
  rw [List.pairwise_append]
  refine ⟨hpw.1, ?_, ?_⟩
  · rw [List.pairwise_cons]
    exact ⟨fun b hb => h.2.1 i b (hs b hb), hpw.2.1⟩
  · intro a ha b hb
    rcases List.mem_cons.mp hb with rfl | hbs
    · exact hp a ha
    · exact hpw.2.2 a ha b hbs

theorem foldl_ins_pairwise (lt : Nat → Nat → Bool) (h : IdxOrder lt) :
    ∀ (rest : List Nat) (acc : List Nat),
      List.Pairwise (fun a b => lt b a = false) acc →
      List.Pairwise (fun a b => lt b a = false)
        (rest.foldl (fun acc i => orderedInsertIdx lt i acc) acc) := by
  intro rest
  induction rest with
  | nil => exact fun acc hpw => hpw
  | cons c rest' ih =>
    intro acc hpw
    exact ih _ (orderedInsertIdx_pairwise lt h c acc hpw)

theorem foldl_ins_perm (lt : Nat → Nat → Bool) :
    ∀ (rest : List Nat) (acc : List Nat),
      (rest.foldl (fun acc i => orderedInsertIdx lt i acc) acc).Perm
        (rest ++ acc) := by
  intro rest
  induction rest with
  | nil => exact fun acc => List.Perm.refl acc
  | cons c rest' ih =>
    intro acc
    refine ((ih (orderedInsertIdx lt c acc)).trans ?_)
    refine (List.Perm.append_left rest' (orderedInsertIdx_perm lt c acc)).trans ?_
    exact List.perm_middle

theorem sublist_orderedInsertIdx (lt : Nat → Nat → Bool) (h : IdxOrder lt)
    (i : Nat) (acc : List Nat)
    (hpw : List.Pairwise (fun a b => lt b a = false) acc) :
    acc.Sublist (orderedInsertIdx lt i acc) := by
  rcases orderedInsertIdx_split lt h i acc hpw with ⟨p, s, hacc, hins, _, _⟩
  rw [hins, hacc]
  exact (List.Sublist.refl p).append (List.sublist_cons_self i s)

theorem sublist_foldl_ins (lt : Nat → Nat → Bool) (h : IdxOrder lt) :
    ∀ (rest : List Nat) (acc x : List Nat), x.Sublist acc →
      List.Pairwise (fun a b => lt b a = false) acc →
      x.Sublist (rest.foldl (fun acc i => orderedInsertIdx lt i acc) acc) := by
  intro rest
  induction rest with
  | nil => exact fun acc x hx _ => hx
  | cons c rest' ih =>
    intro acc x hx hpw
    exact ih _ x (hx.trans (sublist_orderedInsertIdx lt h c acc hpw))
      (orderedInsertIdx_pairwise lt h c acc hpw)

theorem foldl_ins_stable (lt : Nat → Nat → Bool) (h : IdxOrder lt) :
    ∀ (rest : List Nat) (acc : List Nat),
      List.Pairwise (fun a b => lt b a = false) acc →
      ∀ a b, lt a b = false → lt b a = false →
        ((a ∈ acc ∧ b ∈ rest) ∨ [a, b].Sublist rest) →
        [a, b].Sublist
          (rest.foldl (fun acc i => orderedInsertIdx lt i acc) acc) := by
  intro rest
  induction rest with
  | nil =>
    intro acc _ a b _ _ hcase
    rcases hcase with ⟨_, hb⟩ | hsub
    · cases hb
    · cases List.sublist_nil.mp hsub
  | cons c rest' ih =>
    intro acc hpw a b t1 t2 hcase
    have hpw' := orderedInsertIdx_pairwise lt h c acc hpw
    simp only [List.foldl_cons]
    rcases hcase with ⟨ha, hb⟩ | hsub
    · rcases List.mem_cons.mp hb with rfl | hbr
      · rcases orderedInsertIdx_split lt h b acc hpw with ⟨p, s, hacc, hins, _, hs⟩
        have hap : a ∈ p := by
          rcases List.mem_append.mp (by rw [← hacc]; exact ha) with h1 | h2
          · exact h1
          · have hba := hs a h2
            rw [t2] at hba
            cases hba
        have hx : [a, b].Sublist (orderedInsertIdx lt b acc) := by
          rw [hins]
          have h1 : [a].Sublist p := List.singleton_sublist.mpr hap
          have h2 : [b].Sublist (b :: s) :=
            List.Sublist.cons₂ b (List.nil_sublist s)
          simpa using h1.append h2
        exact sublist_foldl_ins lt h rest' _ [a, b] hx hpw'
      · have ha' : a ∈ orderedInsertIdx lt c acc :=
          ((orderedInsertIdx_perm lt c acc).mem_iff).mpr
            (List.mem_cons_of_mem c ha)
        exact ih _ hpw' a b t1 t2 (Or.inl ⟨ha', hbr⟩)
    · cases hsub with
      | cons _ h' =>
        exact ih _ hpw' a b t1 t2 (Or.inr h')
      | cons₂ _ h' =>
        have hc' : c ∈ orderedInsertIdx lt c acc :=
          ((orderedInsertIdx_perm lt c acc).mem_iff).mpr (List.mem_cons_self c acc)
        exact ih _ hpw' c b t1 t2
          (Or.inl ⟨hc', List.singleton_sublist.mp h'⟩)

theorem insArgsort_pairwise (lt : Nat → Nat → Bool) (h : IdxOrder lt)
    (l : List Nat) :
    List.Pairwise (fun a b => lt b a = false) (insArgsort lt l) :=
  foldl_ins_pairwise lt h l [] List.Pairwise.nil

theorem insArgsort_perm (lt : Nat → Nat → Bool) (l : List Nat) :
    (insArgsort lt l).Perm l := by
  have := foldl_ins_perm lt l []
  simpa [insArgsort] using this

theorem insArgsort_stable (lt : Nat → Nat → Bool) (h : IdxOrder lt)
    (l : List Nat) (a b : Nat) (t1 : lt a b = false) (t2 : lt b a = false)
    (hsub : [a, b].Sublist l) : [a, b].Sublist (insArgsort lt l) :=
  foldl_ins_stable lt h l [] List.Pairwise.nil a b t1 t2 (Or.inr hsub)

theorem orderedInsertIdx_append (lt : Nat → Nat → Bool) (i : Nat) :
    ∀ acc : List Nat, (∀ j ∈ acc, lt i j = false) →
      orderedInsertIdx lt i acc = acc ++ [i] := by
  intro acc
  induction acc with
  | nil => exact fun _ => rfl
  | cons j r ih =>
    intro hj
    simp only [orderedInsertIdx]
    rw [if_neg (by simp [hj j (List.mem_cons_self j r)])]
    rw [ih (fun j' hj' => hj j' (List.mem_cons_of_mem j hj')), List.cons_append]

theorem foldl_ins_id (lt : Nat → Nat → Bool) :
    ∀ (rest : List Nat) (acc : List Nat),
      (∀ i ∈ rest, ∀ j ∈ acc, lt i j = false) →
      List.Pairwise (fun a b => lt b a = false) rest →
      rest.foldl (fun acc i => orderedInsertIdx lt i acc) acc = acc ++ rest := by
  intro rest
  induction rest with
  | nil => intro acc _ _; simp
  | cons c rest' ih =>
    intro acc hcond hpw
    rw [List.pairwise_cons] at hpw
    simp only [List.foldl_cons]
    rw [orderedInsertIdx_append lt c acc
      (hcond c (List.mem_cons_self c rest'))]
    rw [ih (acc ++ [c]) ?_ hpw.2]
    · simp
    · intro i hi j hj
      rcases List.mem_append.mp hj with h1 | h2
      · exact hcond i (List.mem_cons_of_mem c hi) j h1
      · rw [List.mem_singleton.mp h2]
        exact hpw.1 i hi

theorem insArgsort_id (lt : Nat → Nat → Bool) (l : List Nat)
    (hpw : List.Pairwise (fun a b => lt b a = false) l) :
    insArgsort lt l = l := by
  have := foldl_ins_id lt l [] (by simp) hpw
  simpa [insArgsort] using this

theorem sublist_range_pair (a b n : Nat) (hab : a < b) (hbn : b < n) :
    [a, b].Sublist (List.range n) := by
  induction n with
  | zero => omega
  | succ m ih =>
    rw [List.range_succ]
    by_cases hbm : b < m
    · exact (ih hbm).trans (List.sublist_append_left _ _)
    · have hb : b = m := by omega
      rw [← hb]
      have h1 : [a].Sublist (List.range b) :=
        List.singleton_sublist.mpr (List.mem_range.mpr hab)
      exact h1.append (List.Sublist.refl [b])

/-! ### Reduction of the introsort to the insertion argsort on small
arrays, and the comparator properties of the three sort columns -/

theorem aqsortLoop_small (lt : Nat → Nat → Bool) (fuel : Nat) (t : Array Nat)
    (pl pr : Nat) (cdepth : Int) (h : ¬ (SMALL_QUICKSORT < pr - pl)) :
    aqsortLoop lt (fuel + 1) t pl pr [] cdepth [] = insSortRange lt t pl pr := by
  rw [aqsortLoop]
  rw [if_neg h]

theorem npyArgsort_small (lt : Nat → Nat → Bool) (n : Nat) (hn : n ≤ 16) :
    npyArgsort lt n = insArgsort lt (List.range n) := by
  by_cases h0 : n = 0
  · subst h0
    simp [npyArgsort, insArgsort]
  · have hcond : ¬ (SMALL_QUICKSORT < n - 1 - 0) := by
      simp only [SMALL_QUICKSORT]
      omega
    have hn1 : n - 1 + 1 - 0 = n := by omega
    have hn2 : n - 1 + 1 = n := by omega
    unfold npyArgsort
    rw [if_neg h0]
    rw [show 4 * n + 4 = (4 * n + 3) + 1 from rfl]
    rw [aqsortLoop_small lt (4 * n + 3) _ 0 (n - 1) _ hcond]
    simp only [insSortRange]
    rw [List.take_zero, List.drop_zero, hn1, hn2]
    have ht : List.take n (List.range n) = List.range n := by simp
    have hd : List.drop n (List.range n) = [] := by simp
    rw [ht, hd]
    simp

theorem ltOrder_irrefl {K : Type} (ltK : K → K → Bool) (h : LtOrder ltK)
    (x : K) : ltK x x = false := by
  cases hx : ltK x x with
  | false => rfl
  | true => exact absurd hx (by rw [h.2.1 x x hx]; exact Bool.false_ne_true)

theorem date_ltOrder : LtOrder Date.ltb := by
  refine ⟨?_, ?_, ?_⟩
  · intro x y z hxy hyz
    simp only [Date.ltb, decide_eq_true_eq] at hxy hyz ⊢
    omega
  · intro x y hxy
    simp only [Date.ltb, decide_eq_true_eq] at hxy
    simp only [Date.ltb, decide_eq_false_iff_not]
    omega
  · intro x y h1 h2
    simp only [Date.ltb, decide_eq_false_iff_not] at h1 h2
    cases x with
    | mk xy xm xd =>
      cases y with
      | mk yy ym yd =>
        dsimp only at h1 h2
        rw [Date.mk.injEq]
        refine ⟨?_, ?_, ?_⟩ <;> omega

theorem nat_ltOrder : LtOrder natLtb := by
  refine ⟨?_, ?_, ?_⟩ <;> intro x y <;>
    simp only [natLtb, decide_eq_true_eq, decide_eq_false_iff_not] <;> omega

theorem charListLt_trans (a : List Char) :
    ∀ b c, charListLt a b = true → charListLt b c = true →
      charListLt a c = true := by
  induction a with
  | nil =>
    intro b c hab hbc
    cases c with
    | nil =>
      cases b with
      | nil => exact hbc
      | cons y ys => exact absurd hbc (by simp [charListLt])
    | cons z zs => rfl
  | cons x xs ih =>
    intro b c hab hbc
    cases b with
    | nil => exact absurd hab (by simp [charListLt])
    | cons y ys =>
      cases c with
      | nil => exact absurd hbc (by simp [charListLt])
      | cons z zs =>
        simp only [charListLt] at hab hbc ⊢
        by_cases hxy : x < y
        · by_cases hyz : y < z
          · rw [if_pos (lt_trans hxy hyz)]
          · rw [if_neg hyz] at hbc
            by_cases hzy : z < y
            · rw [if_pos hzy] at hbc; cases hbc
            · have hy : y = z := le_antisymm (not_lt.mp hzy) (not_lt.mp hyz)
              rw [if_pos (hy ▸ hxy)]
        · rw [if_neg hxy] at hab
          by_cases hyx : y < x
          · rw [if_pos hyx] at hab; cases hab
          · rw [if_neg hyx] at hab
            have hx : x = y := le_antisymm (not_lt.mp hyx) (not_lt.mp hxy)
            by_cases hyz : y < z
            · rw [if_pos (hx ▸ hyz)]
            · rw [if_neg hyz] at hbc
              by_cases hzy : z < y
              · rw [if_pos hzy] at hbc; cases hbc
              · rw [if_neg hzy] at hbc
                rw [if_neg (hx ▸ hyz), if_neg (hx ▸ hzy)]
                exact ih ys zs hab hbc

theorem charListLt_asym (a : List Char) :
    ∀ b, charListLt a b = true → charListLt b a = false := by
  induction a with
  | nil =>
    intro b _
    cases b with
    | nil => rfl
    | cons y ys => rfl
  | cons x xs ih =>
    intro b hab
    cases b with
    | nil => exact absurd hab (by simp [charListLt])
    | cons y ys =>
      simp only [charListLt] at hab ⊢
      by_cases hxy : x < y
      · rw [if_neg (lt_asymm hxy), if_pos hxy]
      · rw [if_neg hxy] at hab
        by_cases hyx : y < x
        · rw [if_pos hyx] at hab; cases hab
        · rw [if_neg hyx] at hab
          rw [if_neg hyx, if_neg hxy]
          exact ih ys hab

theorem charListLt_eq (a : List Char) :
    ∀ b, charListLt a b = false → charListLt b a = false → a = b := by
  induction a with
  | nil =>
    intro b h1 _
    cases b with
    | nil => rfl
    | cons y ys => exact absurd h1 (by simp [charListLt])
  | cons x xs ih =>
    intro b h1 h2
    cases b with
    | nil => exact absurd h2 (by simp [charListLt])
    | cons y ys =>
      simp only [charListLt] at h1 h2
      by_cases hxy : x < y
      · rw [if_pos hxy] at h1; cases h1
      · by_cases hyx : y < x
        · rw [if_pos hyx] at h2; cases h2
        · rw [if_neg hxy, if_neg hyx] at h1
          rw [if_neg hyx, if_neg hxy] at h2
          have hx : x = y := le_antisymm (not_lt.mp hyx) (not_lt.mp hxy)
          rw [hx, ih ys h1 h2]

theorem str_ltOrder : LtOrder strLtb := by
  refine ⟨?_, ?_, ?_⟩
  · intro x y z hxy hyz
    exact charListLt_trans x.data y.data z.data hxy hyz
  · intro x y hxy
    exact charListLt_asym x.data y.data hxy
  · intro x y h1 h2
    have := charListLt_eq x.data y.data h1 h2
    cases x
    cases y
    exact congrArg String.mk this

theorem colLt_idxOrder {K : Type} (keyOf : Event → K) (ltK : K → K → Bool)
    (h : LtOrder ltK) (l : List Event) : IdxOrder (colLt keyOf ltK l) := by
  refine ⟨?_, ?_, ?_⟩
  · intro a b c hab hbc
    exact h.1 _ _ _ hab hbc
  · intro a b hab
    exact h.2.1 _ _ hab
  · intro a b c hab hba
    have heq := h.2.2 _ _ hab hba
    unfold colLt at heq ⊢
    rw [heq]
    exact ⟨rfl, rfl⟩

theorem idxOrder_reindex (lt : Nat → Nat → Bool) (h : IdxOrder lt)
    (f : Nat → Nat) : IdxOrder (fun i j => lt (f i) (f j)) :=
  ⟨fun _ _ _ => h.1 _ _ _, fun _ _ => h.2.1 _ _,
    fun _ _ _ h1 h2 => h.2.2 _ _ _ h1 h2⟩

theorem map_getD_range {α : Type} (l : List α) (d : α) :
    (List.range l.length).map (fun k => l.getD k d) = l := by
  apply List.ext_getElem
  · simp
  · intro i h1 h2
    simp only [List.getElem_map, List.getElem_range]
    rw [List.getD_eq_getElem l d h2]

theorem map_sub_range (n : Nat) :
    (List.range n).map (fun k => n - 1 - k) = (List.range n).reverse := by
  apply List.ext_getElem
  · simp
  · intro i h1 h2
    simp only [List.getElem_map, List.getElem_range, List.getElem_reverse,
      List.length_range]

/-- C10 witness: a collection with two records sharing id "x": delete
removes both; edit rewrites only the first and keeps the duplicate. -/
theorem claim_C10_witness :
    (((delete_event [dupA, dupB] "x").2.Sublist [dupA, dupB] ∧
      (∀ e ∈ (delete_event [dupA, dupB] "x").2, e.id ≠ "x") ∧
      (∀ e ∈ [dupA, dupB], e.id ≠ "x" → e ∈ (delete_event [dupA, dupB] "x").2)) ∧
    ("x" ∈ [dupA, dupB].map Event.id →
      ∃ p m s, [dupA, dupB] = p ++ m :: s ∧ m.id = "x" ∧
        (∀ e ∈ p, e.id ≠ "x") ∧
        (edit_event [dupA, dupB] "x" someFields).2 = p ++ applyEdit someFields m :: s)) ∧
    (edit_event [dupA, dupB] "x" someFields).2 =
      [applyEdit someFields dupA, dupB] :=
  ⟨claim_C10 [dupA, dupB] "x" someFields, by decide⟩

theorem nargsort_true (lt : Nat → Nat → Bool) (n : Nat) :
    nargsort lt n true = npyArgsort lt n := rfl

theorem nargsort_false (lt : Nat → Nat → Bool) (n : Nat) :
    nargsort lt n false =
      ((npyArgsort (fun i j => lt (n - 1 - i) (n - 1 - j)) n).map
        (fun k => n - 1 - k)).reverse := rfl

theorem nargsort_asc_stable (lt : Nat → Nat → Bool) (n : Nat) (h : IdxOrder lt)
    (hn : n ≤ 16) (a b : Nat) (hab : a < b) (hbn : b < n)
    (t1 : lt a b = false) (t2 : lt b a = false) :
    [a, b].Sublist (nargsort lt n true) := by
  rw [nargsort_true, npyArgsort_small lt n hn]
  exact insArgsort_stable lt h _ a b t1 t2 (sublist_range_pair a b n hab hbn)

theorem nargsort_desc_stable (lt : Nat → Nat → Bool) (n : Nat) (h : IdxOrder lt)
    (hn : n ≤ 16) (a b : Nat) (hab : a < b) (hbn : b < n)
    (t1 : lt a b = false) (t2 : lt b a = false) :
    [a, b].Sublist (nargsort lt n false) := by
  rw [nargsort_false, npyArgsort_small _ n hn]
  have h' : IdxOrder (fun i j => lt (n - 1 - i) (n - 1 - j)) :=
    idxOrder_reindex lt h _
  have ha' : n - 1 - b < n - 1 - a := by omega
  have hb' : n - 1 - a < n := by omega
  have e1 : n - 1 - (n - 1 - b) = b := by omega
  have e2 : n - 1 - (n - 1 - a) = a := by omega
  have hsub : [n - 1 - b, n - 1 - a].Sublist
      (insArgsort (fun i j => lt (n - 1 - i) (n - 1 - j)) (List.range n)) := by
    refine insArgsort_stable _ h' _ _ _ ?_ ?_
      (sublist_range_pair _ _ n ha' hb')
    · show lt (n - 1 - (n - 1 - b)) (n - 1 - (n - 1 - a)) = false
      rw [e1, e2]
      exact t2
    · show lt (n - 1 - (n - 1 - a)) (n - 1 - (n - 1 - b)) = false
      rw [e2, e1]
      exact t1
  have hmap := hsub.map (fun k => n - 1 - k)
  rw [List.map_cons, List.map_cons, List.map_nil] at hmap
  simp only [e1, e2] at hmap
  have hrev := hmap.reverse
  simpa using hrev

theorem sort_values_asc_pairwise {K : Type} (keyOf : Event → K)
    (ltK : K → K → Bool) (h : LtOrder ltK) (l : List Event)
    (hn : l.length ≤ 16) :
    List.Pairwise (fun x y : Event => ltK (keyOf y) (keyOf x) = false)
      (sort_values keyOf ltK true l) := by
  unfold sort_values
  rw [nargsort_true, npyArgsort_small _ _ hn]
  refine List.Pairwise.map (fun k => l.getD k default) ?_
    (insArgsort_pairwise _ (colLt_idxOrder keyOf ltK h l) _)
  intro a b hR
  exact hR

theorem sort_values_length_small {K : Type} (keyOf : Event → K)
    (ltK : K → K → Bool) (l : List Event) (hn : l.length ≤ 16) (asc : Bool) :
    (sort_values keyOf ltK asc l).length = l.length := by
  cases asc with
  | true =>
    unfold sort_values
    rw [nargsort_true, npyArgsort_small _ _ hn]
    rw [List.length_map, (insArgsort_perm _ _).length_eq, List.length_range]
  | false =>
    unfold sort_values
    rw [nargsort_false, npyArgsort_small _ _ hn]
    rw [List.length_map, List.length_reverse, List.length_map,
      (insArgsort_perm _ _).length_eq, List.length_range]

theorem sort_values_asc_idem {K : Type} (keyOf : Event → K)
    (ltK : K → K → Bool) (h : LtOrder ltK) (l : List Event)
    (hn : l.length ≤ 16) :
    sort_values keyOf ltK true (sort_values keyOf ltK true l) =
      sort_values keyOf ltK true l := by
  have hlen : (sort_values keyOf ltK true l).length = l.length :=
    sort_values_length_small keyOf ltK l hn true
  have hpw := sort_values_asc_pairwise keyOf ltK h l hn
  conv_lhs => rw [sort_values]
  rw [nargsort_true, npyArgsort_small _ _ (by rw [hlen]; exact hn)]
  rw [insArgsort_id]
  · exact map_getD_range (sort_values keyOf ltK true l) default
  · rw [List.pairwise_iff_getElem]
    intro i j hi hj hij
    simp only [List.length_range] at hi hj
    simp only [List.getElem_range]
    show ltK (keyOf ((sort_values keyOf ltK true l).getD j default))
      (keyOf ((sort_values keyOf ltK true l).getD i default)) = false
    rw [List.getD_eq_getElem _ default (by omega),
      List.getD_eq_getElem _ default (by omega)]
    exact List.pairwise_iff_getElem.mp hpw i j (by omega) (by omega) hij

theorem sort_values_desc_pairwise {K : Type} (keyOf : Event → K)
    (ltK : K → K → Bool) (h : LtOrder ltK) (l : List Event)
    (hn : l.length ≤ 16) :
    List.Pairwise (fun x y : Event => ltK (keyOf x) (keyOf y) = false)
      (sort_values keyOf ltK false l) := by
  unfold sort_values
  rw [nargsort_false, npyArgsort_small _ _ hn]
  have hidx' : IdxOrder
      (fun i j => colLt keyOf ltK l (l.length - 1 - i) (l.length - 1 - j)) :=
    idxOrder_reindex _ (colLt_idxOrder keyOf ltK h l) _
  have hs := insArgsort_pairwise _ hidx' (List.range l.length)
  have hm : List.Pairwise (fun x y => colLt keyOf ltK l y x = false)
      ((insArgsort
        (fun i j => colLt keyOf ltK l (l.length - 1 - i) (l.length - 1 - j))
        (List.range l.length)).map (fun k => l.length - 1 - k)) := by
    refine List.Pairwise.map _ ?_ hs
    intro a b hR
    exact hR
  have hrev : List.Pairwise (fun x y => colLt keyOf ltK l x y = false)
      (((insArgsort
        (fun i j => colLt keyOf ltK l (l.length - 1 - i) (l.length - 1 - j))
        (List.range l.length)).map (fun k => l.length - 1 - k)).reverse) := by
    rw [List.pairwise_reverse]
    exact hm
  refine List.Pairwise.map _ ?_ hrev
  intro a b hR
  exact hR

theorem sort_values_desc_idem {K : Type} (keyOf : Event → K)
    (ltK : K → K → Bool) (h : LtOrder ltK) (l : List Event)
    (hn : l.length ≤ 16) :
    sort_values keyOf ltK false (sort_values keyOf ltK false l) =
      sort_values keyOf ltK false l := by
  have hlen : (sort_values keyOf ltK false l).length = l.length :=
    sort_values_length_small keyOf ltK l hn false
  have hpw := sort_values_desc_pairwise keyOf ltK h l hn
  conv_lhs => rw [sort_values]
  rw [nargsort_false, npyArgsort_small _ _ (by rw [hlen]; exact hn)]
  rw [insArgsort_id]
  · rw [map_sub_range, List.reverse_reverse]
    exact map_getD_range _ default
  · rw [List.pairwise_iff_getElem]
    intro i j hi hj hij
    simp only [List.length_range] at hi hj
    simp only [List.getElem_range]
    show ltK
      (keyOf ((sort_values keyOf ltK false l).getD
        ((sort_values keyOf ltK false l).length - 1 - j) default))
      (keyOf ((sort_values keyOf ltK false l).getD
        ((sort_values keyOf ltK false l).length - 1 - i) default)) = false
    rw [List.getD_eq_getElem _ default (by omega),
      List.getD_eq_getElem _ default (by omega)]
    exact List.pairwise_iff_getElem.mp hpw _ _ (by omega) (by omega) (by omega)

/-- C1 (amended): for collections of at most 16 events — numpy's
quicksort/insertion threshold, below which `sort_values(kind='quicksort')`
degenerates to a stable insertion sort — any two events with equal dates
keep their relative collection order in both date sort directions; the
displayed sequence is the indexer mapped over the collection. -/
theorem claim_C1 (l : List Event) (hn : l.length ≤ 16) (i j : Nat)
    (hij : i < j) (hjn : j < l.length)
    (hd : (l.getD i default).date = (l.getD j default).date) :
    [i, j].Sublist (sortIndexer l SortKey.dateAsc) ∧
    [i, j].Sublist (sortIndexer l SortKey.dateDesc) ∧
    view_sort_events l SortKey.dateAsc =
      (sortIndexer l SortKey.dateAsc).map (fun k => l.getD k default) ∧
    view_sort_events l SortKey.dateDesc =
      (sortIndexer l SortKey.dateDesc).map (fun k => l.getD k default) := by
  have hidx := colLt_idxOrder Event.date Date.ltb date_ltOrder l
  have t1 : colLt Event.date Date.ltb l i j = false := by
    show Date.ltb (l.getD i default).date (l.getD j default).date = false
    rw [hd]
    exact ltOrder_irrefl Date.ltb date_ltOrder _
  have t2 : colLt Event.date Date.ltb l j i = false := by
    show Date.ltb (l.getD j default).date (l.getD i default).date = false
    rw [hd]
    exact ltOrder_irrefl Date.ltb date_ltOrder _
  exact ⟨nargsort_asc_stable _ _ hidx hn i j hij hjn t1 t2,
    nargsort_desc_stable _ _ hidx hn i j hij hjn t1 t2, rfl, rfl⟩

/-- C1 witness: two equal-date events keep their order under both date
sorts. -/
theorem claim_C1_witness :
    twoTied.length ≤ 16 ∧ 0 < 1 ∧ 1 < twoTied.length ∧
    (twoTied.getD 0 default).date = (twoTied.getD 1 default).date ∧
    ([0, 1].Sublist (sortIndexer twoTied SortKey.dateAsc) ∧
     [0, 1].Sublist (sortIndexer twoTied SortKey.dateDesc) ∧
     view_sort_events twoTied SortKey.dateAsc =
       (sortIndexer twoTied SortKey.dateAsc).map
         (fun k => twoTied.getD k default) ∧
     view_sort_events twoTied SortKey.dateDesc =
       (sortIndexer twoTied SortKey.dateDesc).map
         (fun k => twoTied.getD k default)) :=
  ⟨by decide, by decide, by decide, by decide,
    claim_C1 twoTied (by decide) 0 1 (by decide) (by decide) (by decide)⟩

/-- C9 (amended): sortedView is idempotent for every sort key on
collections of at most 16 events (below numpy's quicksort threshold the
sort is an insertion sort, and re-sorting a sorted sequence moves
nothing). -/
theorem claim_C9 (l : List Event) (hn : l.length ≤ 16) (k : SortKey) :
    view_sort_events (view_sort_events l k) k = view_sort_events l k := by
  cases k with
  | dateAsc => exact sort_values_asc_idem Event.date Date.ltb date_ltOrder l hn
  | dateDesc => exact sort_values_desc_idem Event.date Date.ltb date_ltOrder l hn
  | attendeesDesc =>
    exact sort_values_desc_idem Event.attendees natLtb nat_ltOrder l hn
  | nameAsc => exact sort_values_asc_idem Event.name strLtb str_ltOrder l hn

/-- C9 witness: re-sorting a two-event collection by each key changes
nothing. -/
theorem claim_C9_witness :
    twoTied.length ≤ 16 ∧
    view_sort_events (view_sort_events twoTied SortKey.dateAsc)
      SortKey.dateAsc = view_sort_events twoTied SortKey.dateAsc :=
  ⟨by decide, claim_C9 twoTied (by decide) SortKey.dateAsc⟩

/-- C1 (counterexample): seventeen equal-date events exceed numpy's
insertion-sort threshold; the default quicksort's partition reorders the
ties, so events 1 and 2 (equal dates) come out in swapped order. -/
theorem claim_C1_counterexample :
    (ce17.getD 1 default).date = (ce17.getD 2 default).date ∧
    ¬ [1, 2].Sublist (sortIndexer ce17 SortKey.dateAsc) := by
  decide

/-- C9 (counterexample): on seventeen equal-date events the date-asc sort
permutes the ties, and sorting its own output permutes them again, so
sortedView is not idempotent. -/
theorem claim_C9_counterexample :
    view_sort_events (view_sort_events ce17 SortKey.dateAsc) SortKey.dateAsc ≠
      view_sort_events ce17 SortKey.dateAsc := by
  decide

end EMS

